import Mathlib

/-!
Verification development for the terminal-history-navigator repository.

The Go source is shallowly embedded: Go strings become lists of characters,
`time.Time` values become integer Unix seconds, Go `int` becomes `Int`,
slices become lists, and the in-place `sort.Slice` calls become insertion
sort by the reflexive closure of the code's strict `less` predicate (a
deterministic model of the unstable in-place sort).

The repository carries two revisions of `internal/history/reader.go`:
the position-keyed revision (the file `src/internal/history/reader.go`,
first document) is embedded in namespace `HistoryPos`, and the
timestamp-keyed revision (`src/unnamed/part_001`) in namespace `HistoryTs`.
`internal/storage/memory.go` (namespace `Storage`) works on the
timestamp-keyed `Command` type.
-/

namespace GoStr

/-- Go strings are modelled as lists of characters. -/
abbrev Str := List Char

/-- Whitespace test used by `strings.TrimSpace` and `strings.Fields`
(the ASCII fragment of `unicode.IsSpace`). -/
def isSpace (c : Char) : Bool :=
  c = ' ' || c = '\t' || c = '\n' || c = ⟨11, by decide⟩ || c = ⟨12, by decide⟩ || c = '\r'

/-- ASCII lowercasing of one character (the ASCII fragment of `strings.ToLower`). -/
def toLowerChar (c : Char) : Char :=
  if 'A' ≤ c && c ≤ 'Z' then Char.ofNat (c.toNat + 32) else c

/-- Model of `strings.ToLower`. -/
def toLower (s : Str) : Str := s.map toLowerChar

/-- Model of `strings.TrimSpace`: drop leading and trailing whitespace. -/
def trimSpace (s : Str) : Str :=
  ((s.dropWhile isSpace).reverse.dropWhile isSpace).reverse

/-- Does `sub` occur at the very start of `s`. -/
def leadMatch : Str → Str → Bool
  | [], _ => true
  | _ :: _, [] => false
  | a :: sub, b :: s => a == b && leadMatch sub s

/-- Model of `strings.Contains s sub`: `sub` occurs as a contiguous substring of `s`. -/
def containsSub (s sub : Str) : Bool :=
  match s with
  | [] => sub.isEmpty
  | _ :: t => leadMatch sub s || containsSub t sub

/-- Helper for `fields`: `acc` is the word currently being accumulated. -/
def fieldsAux (acc : Str) : Str → List Str
  | [] => if acc = [] then [] else [acc]
  | c :: s =>
    if isSpace c then
      if acc = [] then fieldsAux [] s else acc :: fieldsAux [] s
    else fieldsAux (acc ++ [c]) s

/-- Model of `strings.Fields`: split around runs of whitespace, no empty fields. -/
def fields (s : Str) : List Str := fieldsAux [] s

/-- Model of `strings.Split s sep` for a one-character separator
(`List.splitOnP` keeps empty pieces, exactly like Go's `strings.Split`). -/
def splitOnChar (s : Str) (sep : Char) : List Str := s.splitOnP (· = sep)

/-- Digit-string value, used by the `strconv.Atoi` model. -/
def digitsToNat (s : Str) : Nat := s.foldl (fun n c => n * 10 + (c.toNat - 48)) 0

/-- All characters are ASCII digits. -/
def allDigits (s : Str) : Bool := s.all (fun c => '0' ≤ c && c ≤ '9')

/-- Model of `strconv.Atoi`: optional sign followed by at least one digit
(overflow is not modelled). -/
def Atoi (s : Str) : Option Int :=
  match s with
  | [] => none
  | '-' :: rest => if rest ≠ [] ∧ allDigits rest then some (-(digitsToNat rest : Int)) else none
  | '+' :: rest => if rest ≠ [] ∧ allDigits rest then some ((digitsToNat rest : Int)) else none
  | _ => if allDigits s then some ((digitsToNat s : Int)) else none

end GoStr

namespace HistoryPos

open GoStr

/-- Command from `internal/history/reader.go` (position-keyed revision):
Text, Position (higher = newer), Directory, Count, ExitCode, HasExit. -/
structure Command where
  Text : Str
  Position : Int
  Directory : Str := []
  Count : Int := 0
  ExitCode : Int := 0
  HasExit : Bool := false
deriving DecidableEq

/-- Reader state; a compiled exclusion regex is modelled as the text
predicate its `MatchString` method denotes. -/
structure Reader where
  excludePatterns : List (Str → Bool) := []

/-- Model of `Reader.shouldExclude`: does any compiled pattern match. -/
def shouldExclude (r : Reader) (command : Str) : Bool :=
  r.excludePatterns.any (fun p => p command)

/-- Model of `isJustNumber`: nonempty and all ASCII digits. -/
def isJustNumber (s : Str) : Bool :=
  !s.isEmpty && s.all (fun c => '0' ≤ c && c ≤ '9')

/-- Model of `Reader.isProblematicCommand` (position-keyed revision):
empty after trim, contains NUL or 0xFF, or purely numeric. -/
def isProblematicCommand (cmd : Command) : Bool :=
  let cleanText := trimSpace cmd.Text
  cleanText.isEmpty
    || containsSub cleanText [Char.ofNat 0]
    || containsSub cleanText [Char.ofNat 255]
    || isJustNumber cleanText

/-- Model of `Reader.filterProblematicCommands`. -/
def filterProblematicCommands (commands : List Command) : List Command :=
  commands.filter (fun cmd => !isProblematicCommand cmd)

/-- Ordering relation of `sort.Slice(..., func(i,j) { return a[i].Position > a[j].Position })`:
the reflexive total closure of the strict comparison. -/
def posGe (a b : Command) : Prop := b.Position ≤ a.Position

instance : DecidableRel posGe := fun a b =>
  inferInstanceAs (Decidable (b.Position ≤ a.Position))

instance : IsTotal Command posGe := ⟨fun a b => le_total b.Position a.Position⟩

instance : IsTrans Command posGe := ⟨fun _ _ _ hab hbc => le_trans hbc hab⟩

/-- Both `sort.Slice` calls of `ReadHistory` sort by position, newest first. -/
def sortByPosDesc (l : List Command) : List Command := List.insertionSort posGe l

/-- State of the dedup loop of `ReadHistory`: `commandMap` models the
contents of the Go `map[string]*Command` (key, current pointee value) and
`result` the `result` slice.  Go appends a *value copy* of `newCmd` to
`result` while the map stores a pointer; later writes through the pointer
(`existing.Count++` and the position/exit refresh) therefore update only
`commandMap`, never `result`. -/
structure DedupState where
  commandMap : List (Str × Command)
  result : List Command

/-- Map lookup (`commandMap[cleanText]`). -/
def lookupMap (m : List (Str × Command)) (k : Str) : Option Command :=
  (m.find? (fun p => p.1 = k)).map (fun p => p.2)

/-- Write through the stored pointer: replace the value at key `k`. -/
def updateMap (m : List (Str × Command)) (k : Str) (v : Command) : List (Str × Command) :=
  m.map (fun p => if p.1 = k then (p.1, v) else p)

/-- One iteration of the dedup loop in `ReadHistory` (lines 88-116 of the
position-keyed revision).  On a repeated text the count is incremented and
the position/exit fields refreshed in `commandMap` only; `result` keeps the
copy appended at first sight. -/
def dedupStep (r : Reader) (st : DedupState) (cmd : Command) : DedupState :=
  if shouldExclude r cmd.Text then st
  else
    let cleanText := trimSpace cmd.Text
    if cleanText = [] then st
    else
      match lookupMap st.commandMap cleanText with
      | some existing =>
        let bumped := { existing with Count := existing.Count + 1 }
        let updated :=
          if bumped.Position < cmd.Position then
            { bumped with Position := cmd.Position, ExitCode := cmd.ExitCode,
                          HasExit := cmd.HasExit }
          else bumped
        { st with commandMap := updateMap st.commandMap cleanText updated }
      | none =>
        let newCmd := { cmd with Text := cleanText, Count := 1 }
        { commandMap := (cleanText, newCmd) :: st.commandMap,
          result := st.result ++ [newCmd] }

/-- The dedup loop run over a command list from an initial state. -/
def dedupRun (r : Reader) (cmds : List Command) : DedupState :=
  cmds.foldl (dedupStep r) ⟨[], []⟩

/-- Model of `Reader.ReadHistory` from the point where `allCommands` holds
the concatenation of all sources' parsed candidates (per-file reading is
I/O and is supplied here as the argument): filter problematic commands,
sort by position descending, dedup, re-sort. -/
def ReadHistory (r : Reader) (allCommands : List Command) : List Command :=
  let filtered := filterProblematicCommands allCommands
  let sorted := sortByPosDesc filtered
  sortByPosDesc (dedupRun r sorted).result

/-- Pure recursion computing the `result` component of the dedup loop:
the first surviving occurrence of each clean text, with `Text` trimmed and
`Count` set to 1.  `seen` is the map's key set. -/
def dedupList (r : Reader) (seen : List Str) : List Command → List Command
  | [] => []
  | c :: rest =>
    if shouldExclude r c.Text then dedupList r seen rest
    else
      let ct := trimSpace c.Text
      if ct = [] then dedupList r seen rest
      else if ct ∈ seen then dedupList r seen rest
      else { c with Text := ct, Count := 1 } :: dedupList r (ct :: seen) rest

/-- Keep-predicate of the dedup loop: not excluded and nonempty after trim. -/
def keep (r : Reader) (c : Command) : Prop :=
  ¬ shouldExclude r c.Text = true ∧ trimSpace c.Text ≠ []

instance (r : Reader) (c : Command) : Decidable (keep r c) :=
  inferInstanceAs (Decidable (_ ∧ _))

/-- The record the dedup loop emits for a first occurrence. -/
def cleanOf (c : Command) : Command :=
  { c with Text := trimSpace c.Text, Count := 1 }

end HistoryPos

namespace HistoryPos

open GoStr

/-- Model of the result of `regexp.Compile`: `none` for a malformed
pattern, otherwise the predicate the compiled regexp's `MatchString`
denotes.  The regexp engine itself is external to the repository. -/
abbrev CompileFun := Str → Option (Str → Bool)

/-- Loop of `Reader.SetExcludePatterns` (lines 44-56): compile the patterns
in order into `acc`; on the first compile error stop and return the error
(modelled as the offending pattern text). -/
def compileLoop (compile : CompileFun) : List Str → List (Str → Bool) →
    List (Str → Bool) × Option Str
  | [], acc => (acc, none)
  | p :: rest, acc =>
    match compile p with
    | none => (acc, some p)
    | some regex => compileLoop compile rest (acc ++ [regex])

/-- Model of `Reader.SetExcludePatterns`: `r.excludePatterns` is reset to a
fresh slice and receives every pattern compiled before the first error; the
error (if any) is returned and nothing is rolled back. -/
def SetExcludePatterns (compile : CompileFun) (r : Reader) (patterns : List Str) :
    Reader × Option Str :=
  let out := compileLoop compile patterns []
  ({ r with excludePatterns := out.1 }, out.2)

/-- Model of `Reader.parseZshLine` (position-keyed revision, lines 238-291):
trim; a line without the leading marker is a plain command; with the marker,
the first semicolon separates metadata from command text; a missing or
line-final semicolon triggers best-effort recovery (the text after the
marker, when nonempty and free of further colons); otherwise the
colon-separated metadata optionally yields an exit code from field 2. -/
def parseZshLine (line0 : Str) (lineNum : Int) : Command :=
  let line := trimSpace line0
  if line.take 1 ≠ [':'] then
    if line ≠ [] then { Text := line, Position := lineNum }
    else { Text := [], Position := lineNum }
  else
    let semiPost := line.dropWhile (fun c => c ≠ ';')
    if semiPost = [] ∨ semiPost = [';'] then
      if 1 < line.length then
        let possibleCmd := trimSpace (line.drop 1)
        if possibleCmd ≠ [] ∧ ¬ possibleCmd.contains ':' then
          { Text := possibleCmd, Position := lineNum }
        else { Text := [], Position := lineNum }
      else { Text := [], Position := lineNum }
    else
      let metadataPart := (line.takeWhile (fun c => c ≠ ';')).drop 1
      let parts := splitOnChar metadataPart ':'
      let p2 := parts.getD 2 []
      let ec : Int × Bool :=
        if 3 ≤ parts.length ∧ p2 ≠ [] then
          match Atoi p2 with
          | some code => (code, true)
          | none => (0, false)
        else (0, false)
      { Text := trimSpace (semiPost.drop 1), Position := lineNum,
        ExitCode := ec.1, HasExit := ec.2 }

end HistoryPos

namespace HistoryTs

open GoStr

/-- Command from `src/unnamed/part_001` (timestamp-keyed revision); the
`time.Time` Timestamp is modelled as Unix seconds. -/
structure Command where
  Text : Str
  Timestamp : Int
  Directory : Str := []
  Count : Int := 0
  ExitCode : Int := 0
  HasExit : Bool := false
deriving DecidableEq

/-- Reader state of the timestamp-keyed revision. -/
structure Reader where
  excludePatterns : List (Str → Bool) := []

/-- Model of `Reader.shouldExclude`. -/
def shouldExclude (r : Reader) (command : Str) : Bool :=
  r.excludePatterns.any (fun p => p command)

/-- Model of `isJustNumber` (identical in this revision). -/
def isJustNumber (s : Str) : Bool :=
  !s.isEmpty && s.all (fun c => '0' ≤ c && c ≤ '9')

/-- Model of `Reader.isProblematicCommand` (part_001 lines 146-179):
future timestamp beyond one hour of grace, timestamp before the one-year
horizon, empty after trim, NUL or 0xFF bytes, shorter than 2 characters,
or purely numeric.  `now` and `oneYearAgo` are the values computed by
`filterProblematicCommands` (`time.Now()` and `now.AddDate(-1,0,0)`). -/
def isProblematicCommand (now oneYearAgo : Int) (cmd : Command) : Bool :=
  let cleanText := trimSpace cmd.Text
  (now + 3600 < cmd.Timestamp)
    || (cmd.Timestamp < oneYearAgo)
    || cleanText.isEmpty
    || containsSub cleanText [Char.ofNat 0]
    || containsSub cleanText [Char.ofNat 255]
    || (cleanText.length < 2)
    || isJustNumber cleanText

/-- Model of `Reader.filterProblematicCommands` of part_001; the wall-clock
values it computes are passed in as parameters. -/
def filterProblematicCommands (now oneYearAgo : Int) (commands : List Command) :
    List Command :=
  commands.filter (fun cmd => !isProblematicCommand now oneYearAgo cmd)

/-- Ordering relation of `sort.Slice(..., Timestamp.After)`: reflexive total
closure of "strictly more recent". -/
def tsGe (a b : Command) : Prop := b.Timestamp ≤ a.Timestamp

instance : DecidableRel tsGe := fun a b =>
  inferInstanceAs (Decidable (b.Timestamp ≤ a.Timestamp))

instance : IsTotal Command tsGe := ⟨fun a b => le_total b.Timestamp a.Timestamp⟩

instance : IsTrans Command tsGe := ⟨fun _ _ _ hab hbc => le_trans hbc hab⟩

/-- Sort used in `ReadHistory` of part_001: newest first. -/
def sortByTsDesc (l : List Command) : List Command := List.insertionSort tsGe l

/-- Observable result of the dedup loop of part_001's `ReadHistory` (lines
89-116): the first surviving occurrence of each clean text, trimmed, with
`Count` 1.  As in the position-keyed revision, `result` receives value
copies at first sight and the later pointer writes into `commandMap`
(`existing.Count++`, timestamp/exit refresh) never reach it. -/
def dedupListTs (r : Reader) (seen : List Str) : List Command → List Command
  | [] => []
  | c :: rest =>
    if shouldExclude r c.Text then dedupListTs r seen rest
    else
      let ct := trimSpace c.Text
      if ct = [] then dedupListTs r seen rest
      else if ct ∈ seen then dedupListTs r seen rest
      else { c with Text := ct, Count := 1 } :: dedupListTs r (ct :: seen) rest

/-- Model of part_001's `Reader.ReadHistory` from the point where
`allCommands` holds all sources' parsed candidates: filter, sort by
timestamp descending, dedup, re-sort. -/
def ReadHistory (r : Reader) (now oneYearAgo : Int) (allCommands : List Command) :
    List Command :=
  let filtered := filterProblematicCommands now oneYearAgo allCommands
  let sorted := sortByTsDesc filtered
  sortByTsDesc (dedupListTs r [] sorted)

end HistoryTs

namespace Storage

open GoStr
open HistoryTs (Command tsGe)

/-- Model of `MemoryStorage` (internal/storage/memory.go): the stored
command slice and the word index built by `Store`.  No query operation
reads or writes `indexed`; it is kept to state frame properties. -/
structure MemoryStorage where
  commands : List Command := []
  indexed : List (Str × List Nat) := []

/-- Sort relation of `GetRecent`, `GetAll` and the non-empty branch of
`Search`: newest first. -/
def recGe (a b : Command) : Prop := tsGe a b

instance : DecidableRel recGe := fun a b =>
  inferInstanceAs (Decidable (b.Timestamp ≤ a.Timestamp))

instance : IsTotal Command recGe := ⟨fun a b => le_total b.Timestamp a.Timestamp⟩

instance : IsTrans Command recGe := ⟨fun _ _ _ hab hbc => le_trans hbc hab⟩

/-- Model of `MemoryStorage.GetRecent`: copy, sort newest first, truncate
when `0 < limit < len`. -/
def GetRecent (s : MemoryStorage) (limit : Int) : List Command :=
  let commands := List.insertionSort recGe s.commands
  if 0 < limit ∧ limit < (commands.length : Int) then commands.take limit.toNat
  else commands

/-- Model of `MemoryStorage.GetAll`: copy and sort newest first. -/
def GetAll (s : MemoryStorage) : List Command :=
  List.insertionSort recGe s.commands

/-- Model of `MemoryStorage.Search` (lines 40-75): empty query falls back
to `GetRecent 1000`; otherwise the query is lowercased, split into words,
commands containing every word as a substring are collected in order, and
the matches are sorted by timestamp only (the code's comment notwithstanding,
frequency is not consulted). -/
def Search (s : MemoryStorage) (query : Str) : List Command :=
  if query = [] then GetRecent s 1000
  else
    let q := toLower query
    let queryWords := fields q
    let results := s.commands.filter
      (fun cmd => queryWords.all (fun word => containsSub (toLower cmd.Text) word))
    List.insertionSort recGe results

/-- Model of `calculateSimulatedFrequency`: base 1, +2 when any common
development tool name occurs as a substring of the lowercased text (the
loop breaks after the first match), +1 when shorter than 10 characters,
+1 when the text has no space. -/
def commonPatterns : List Str :=
  ["git".toList, "make".toList, "npm".toList, "yarn".toList, "docker".toList,
   "cd".toList, "ls".toList, "vim".toList, "code".toList, "python".toList,
   "node".toList, "go".toList, "cargo".toList, "mvn".toList, "gradle".toList,
   "pip".toList, "brew".toList]

/-- Simulated frequency of one command. -/
def calculateSimulatedFrequency (cmd : Command) : Int :=
  let freq : Int := 1
  let freq := if commonPatterns.any (fun p => containsSub (toLower cmd.Text) p)
              then freq + 2 else freq
  let freq := if cmd.Text.length < 10 then freq + 1 else freq
  if ¬ cmd.Text.contains ' ' then freq + 1 else freq

/-- Sort relation of `GetByFrequency`: higher count first, ties broken by
newer timestamp (reflexive total closure of the code's strict less). -/
def freqGe (a b : Command) : Prop :=
  b.Count < a.Count ∨ (a.Count = b.Count ∧ b.Timestamp ≤ a.Timestamp)

instance : DecidableRel freqGe := fun _ _ =>
  inferInstanceAs (Decidable (_ ∨ _))

instance : IsTotal Command freqGe := by
  refine ⟨fun a b => ?_⟩
  rcases lt_trichotomy a.Count b.Count with h | h | h
  · exact Or.inr (Or.inl h)
  · rcases le_total b.Timestamp a.Timestamp with ht | ht
    · exact Or.inl (Or.inr ⟨h, ht⟩)
    · exact Or.inr (Or.inr ⟨h.symm, ht⟩)
  · exact Or.inl (Or.inl h)

instance : IsTrans Command freqGe := by
  refine ⟨fun a b c hab hbc => ?_⟩
  rcases hab with h1 | ⟨h1, h1t⟩ <;> rcases hbc with h2 | ⟨h2, h2t⟩
  · exact Or.inl (lt_trans h2 h1)
  · exact Or.inl (h2 ▸ h1)
  · exact Or.inl (h1 ▸ h2)
  · exact Or.inr ⟨h1.trans h2, le_trans h2t h1t⟩

/-- Model of `MemoryStorage.GetByFrequency` (lines 78-110): copy the
stored commands, keep those with `Count > 1`; when none qualify, replace
every count in the copy by its simulated frequency; sort by count then
recency. -/
def GetByFrequency (s : MemoryStorage) : List Command :=
  let commands := s.commands
  let frequentCommands := commands.filter (fun cmd => 1 < cmd.Count)
  let frequentCommands :=
    if frequentCommands.length = 0 then
      commands.map (fun cmd => { cmd with Count := calculateSimulatedFrequency cmd })
    else frequentCommands
  List.insertionSort freqGe frequentCommands

/-- Query operations of the `Storage` interface that C10 ranges over. -/
inductive QueryOp where
  | search (query : Str)
  | getRecent (limit : Int)
  | getAll
  | getByFrequency

/-- One query call: its output together with the storage state it leaves
behind.  Every Go method reads `s.commands` into a fresh slice (or appends
value copies) before sorting or rewriting counts, and never assigns to
`s.commands` or `s.indexed`, so the post-state is `s` itself. -/
def runOp (s : MemoryStorage) : QueryOp → List Command × MemoryStorage
  | QueryOp.search q => (Search s q, s)
  | QueryOp.getRecent n => (GetRecent s n, s)
  | QueryOp.getAll => (GetAll s, s)
  | QueryOp.getByFrequency => (GetByFrequency s, s)

/-- The storage state after a sequence of query calls. -/
def runOps (s : MemoryStorage) : List QueryOp → MemoryStorage
  | [] => s
  | op :: rest => runOps (runOp s op).2 rest

end Storage

open GoStr

/-- Characters are equal iff their code points are. -/
theorem char_eq_iff_toNat (d e : Char) : (d = e) ↔ (d.toNat = e.toNat) :=
  ⟨fun h => by rw [h], fun h => Char.ext (UInt32.ext h)⟩

/-- ASCII lowercasing never turns a character into whitespace or back. -/
theorem isSpace_toLowerChar (c : Char) : isSpace (toLowerChar c) = isSpace c := by
  unfold toLowerChar
  split
  · rename_i h
    simp only [Bool.and_eq_true, decide_eq_true_eq] at h
    obtain ⟨h1, h2⟩ := h
    have hv1 : 65 ≤ c.toNat := h1
    have hv2 : c.toNat ≤ 90 := h2
    have hvalid : Nat.isValidChar (c.toNat + 32) := Or.inl (by omega)
    have htn : (Char.ofNat (c.toNat + 32)).toNat = c.toNat + 32 := by
      rw [Char.ofNat, dif_pos hvalid]
      rfl
    have w1 : (' ' : Char).toNat = 32 := rfl
    have w2 : ('\t' : Char).toNat = 9 := rfl
    have w3 : ('\n' : Char).toNat = 10 := rfl
    have w4 : ((⟨11, by decide⟩ : Char)).toNat = 11 := rfl
    have w5 : ((⟨12, by decide⟩ : Char)).toNat = 12 := rfl
    have w6 : ('\r' : Char).toNat = 13 := rfl
    have hs1 : isSpace (Char.ofNat (c.toNat + 32)) = false := by
      simp only [isSpace, char_eq_iff_toNat, htn, w1, w2, w3, w4, w5, w6,
        Bool.or_eq_false_iff, decide_eq_false_iff_not]
      omega
    have hs2 : isSpace c = false := by
      simp only [isSpace, char_eq_iff_toNat, w1, w2, w3, w4, w5, w6,
        Bool.or_eq_false_iff, decide_eq_false_iff_not]
      omega
    rw [hs1, hs2]
  · rfl

/-- Splitting into fields commutes with ASCII lowercasing. -/
theorem fieldsAux_map_toLowerChar (s : Str) : ∀ acc : Str,
    fieldsAux (acc.map toLowerChar) (s.map toLowerChar)
      = (fieldsAux acc s).map (List.map toLowerChar) := by
  induction s with
  | nil =>
    intro acc
    by_cases h : acc = [] <;> simp [fieldsAux, h]
  | cons c s ih =>
    intro acc
    simp only [List.map_cons, fieldsAux, isSpace_toLowerChar]
    by_cases hc : isSpace c = true
    · rw [if_pos hc, if_pos hc]
      have htl : fieldsAux ([] : Str) (s.map toLowerChar)
          = (fieldsAux [] s).map (List.map toLowerChar) := by simpa using ih []
      by_cases h : acc = []
      · subst h
        simpa using htl
      · rw [if_neg (by simpa using h), if_neg h, List.map_cons, htl]
    · rw [if_neg hc, if_neg hc]
      have hacc : (acc.map toLowerChar) ++ [toLowerChar c]
          = (acc ++ [c]).map toLowerChar := by simp
      rw [hacc, ih (acc ++ [c])]

/-- Go `strings.Fields` of a lowercased string gives the lowercased fields. -/
theorem fields_toLower (s : Str) : fields (toLower s) = (fields s).map toLower := by
  have := fieldsAux_map_toLowerChar s []
  simpa [fields, toLower] using this

/-- C3 (confirmed): for every stored collection and every non-empty query,
`Search` returns a command iff it is stored and every whitespace-separated
term of the query occurs as a case-insensitive substring of its text (AND
semantics across terms). -/
theorem search_and_semantics (s : Storage.MemoryStorage) (query : Str)
    (h : query ≠ []) (c : HistoryTs.Command) :
    c ∈ Storage.Search s query ↔
      c ∈ s.commands ∧
        ∀ t ∈ fields query, containsSub (toLower c.Text) (toLower t) = true := by
  unfold Storage.Search
  rw [if_neg h]
  rw [(List.perm_insertionSort _ _).mem_iff, List.mem_filter]
  have hall : ((fields (toLower query)).all
        (fun word => containsSub (toLower c.Text) word) = true)
      ↔ (∀ t ∈ fields query, containsSub (toLower c.Text) (toLower t) = true) := by
    rw [List.all_eq_true, fields_toLower]
    constructor
    · intro hw t ht
      exact hw (toLower t) (List.mem_map_of_mem toLower ht)
    · intro hw w hwmem
      obtain ⟨t, ht, rfl⟩ := List.mem_map.1 hwmem
      exact hw t ht
  rw [hall]

/-- Witness for C3 at a concrete storage and query. -/
theorem search_and_semantics_witness :
    ("Git Push".toList ≠ ([] : Str)) ∧
      ((⟨"git push origin".toList, 7, [], 1, 0, false⟩ : HistoryTs.Command) ∈
          Storage.Search ⟨[⟨"git push origin".toList, 7, [], 1, 0, false⟩,
            ⟨"ls".toList, 9, [], 1, 0, false⟩], []⟩ "Git Push".toList ↔
        (⟨"git push origin".toList, 7, [], 1, 0, false⟩ : HistoryTs.Command) ∈
            ([⟨"git push origin".toList, 7, [], 1, 0, false⟩,
              ⟨"ls".toList, 9, [], 1, 0, false⟩] : List HistoryTs.Command) ∧
          ∀ t ∈ fields "Git Push".toList,
            containsSub (toLower ("git push origin".toList)) (toLower t) = true) :=
  ⟨by decide,
    search_and_semantics
      ⟨[⟨"git push origin".toList, 7, [], 1, 0, false⟩,
        ⟨"ls".toList, 9, [], 1, 0, false⟩], []⟩
      "Git Push".toList (by decide) ⟨"git push origin".toList, 7, [], 1, 0, false⟩⟩

/-- C4 counterexample: with two matching commands where the older one has
the higher count, `Search` puts the newer, lower-count command first, so
the output is not ordered by descending count. -/
theorem search_order_ignores_count :
    ¬ List.Sorted Storage.freqGe
        (Storage.Search
          ⟨[⟨"x alpha".toList, 1, [], 5, 0, false⟩,
            ⟨"x beta".toList, 2, [], 1, 0, false⟩], []⟩ "x".toList) := by
  decide

/-- C4 (amended): every `Search` result list is ordered by descending
ordering key (recency) alone; the frequency count is not consulted. -/
theorem search_sorted_by_recency (s : Storage.MemoryStorage) (query : Str) :
    List.Sorted Storage.recGe (Storage.Search s query) := by
  unfold Storage.Search
  split
  · simp only [Storage.GetRecent]
    split
    · exact List.Pairwise.sublist (List.take_sublist _ _) (List.sorted_insertionSort _ _)
    · exact List.sorted_insertionSort _ _
  · exact List.sorted_insertionSort _ _

/-- C5 counterexample: a stored command with count 1 is omitted from
`GetByFrequency` as soon as some other command has count above 1, so the
operation does not return all stored commands. -/
theorem getByFrequency_omits_nonfrequent :
    ((⟨"bb".toList, 0, [], 1, 0, false⟩ : HistoryTs.Command) ∈
        ([⟨"aa".toList, 0, [], 2, 0, false⟩, ⟨"bb".toList, 0, [], 1, 0, false⟩] :
          List HistoryTs.Command)) ∧
      ¬ ((⟨"bb".toList, 0, [], 1, 0, false⟩ : HistoryTs.Command) ∈
          Storage.GetByFrequency
            ⟨[⟨"aa".toList, 0, [], 2, 0, false⟩,
              ⟨"bb".toList, 0, [], 1, 0, false⟩], []⟩) := by
  decide

/-- C5 (amended): whenever at least one stored command has count above 1,
`GetByFrequency` returns exactly the stored commands with count above 1
(counts untouched), ordered by descending count with descending recency as
tie-break. -/
theorem getByFrequency_frequent_branch (s : Storage.MemoryStorage)
    (h : s.commands.filter (fun cmd => decide (1 < cmd.Count)) ≠ []) :
    List.Perm (Storage.GetByFrequency s)
        (s.commands.filter (fun cmd => decide (1 < cmd.Count))) ∧
      List.Sorted Storage.freqGe (Storage.GetByFrequency s) := by
  have hlen : ¬ (s.commands.filter (fun cmd => decide (1 < cmd.Count))).length = 0 := by
    simpa [List.length_eq_zero] using h
  constructor
  · simp only [Storage.GetByFrequency]
    rw [if_neg hlen]
    exact List.perm_insertionSort _ _
  · exact List.sorted_insertionSort _ _

/-- Witness for C5's amended theorem at a concrete storage. -/
theorem getByFrequency_frequent_branch_witness :
    (((⟨[⟨"aa".toList, 0, [], 2, 0, false⟩, ⟨"bb".toList, 0, [], 1, 0, false⟩], []⟩ :
          Storage.MemoryStorage).commands.filter (fun cmd => decide (1 < cmd.Count)) ≠ []) ∧
      (List.Perm
          (Storage.GetByFrequency
            ⟨[⟨"aa".toList, 0, [], 2, 0, false⟩, ⟨"bb".toList, 0, [], 1, 0, false⟩], []⟩)
          ((⟨[⟨"aa".toList, 0, [], 2, 0, false⟩, ⟨"bb".toList, 0, [], 1, 0, false⟩], []⟩ :
            Storage.MemoryStorage).commands.filter (fun cmd => decide (1 < cmd.Count))) ∧
        List.Sorted Storage.freqGe
          (Storage.GetByFrequency
            ⟨[⟨"aa".toList, 0, [], 2, 0, false⟩, ⟨"bb".toList, 0, [], 1, 0, false⟩], []⟩))) :=
  ⟨by decide,
    getByFrequency_frequent_branch
      ⟨[⟨"aa".toList, 0, [], 2, 0, false⟩, ⟨"bb".toList, 0, [], 1, 0, false⟩], []⟩
      (by decide)⟩

/-- C10 (confirmed): the query operations `Search`, `GetRecent`, `GetAll`
and `GetByFrequency` leave the storage state (stored commands, counts and
word index) unchanged under any sequence of calls. -/
theorem query_ops_preserve_storage (s : Storage.MemoryStorage)
    (ops : List Storage.QueryOp) : Storage.runOps s ops = s := by
  induction ops with
  | nil => rfl
  | cons op rest ih => cases op <;> exact ih

/-- Every record emitted by the timestamp-revision dedup loop is the
trimmed, count-1 copy of some input record. -/
theorem mem_dedupListTs {r : HistoryTs.Reader} {x : HistoryTs.Command} :
    ∀ {l : List HistoryTs.Command} {seen : List Str},
      x ∈ HistoryTs.dedupListTs r seen l →
      ∃ c ∈ l, x = { c with Text := trimSpace c.Text, Count := 1 } := by
  intro l
  induction l with
  | nil => intro seen h; simp [HistoryTs.dedupListTs] at h
  | cons c rest ih =>
    intro seen h
    simp only [HistoryTs.dedupListTs] at h
    by_cases h1 : HistoryTs.shouldExclude r c.Text = true
    · rw [if_pos h1] at h
      obtain ⟨c0, hc0, hx⟩ := ih h
      exact ⟨c0, List.mem_cons_of_mem _ hc0, hx⟩
    · rw [if_neg h1] at h
      by_cases h2 : trimSpace c.Text = []
      · rw [if_pos h2] at h
        obtain ⟨c0, hc0, hx⟩ := ih h
        exact ⟨c0, List.mem_cons_of_mem _ hc0, hx⟩
      · rw [if_neg h2] at h
        by_cases h3 : trimSpace c.Text ∈ seen
        · rw [if_pos h3] at h
          obtain ⟨c0, hc0, hx⟩ := ih h
          exact ⟨c0, List.mem_cons_of_mem _ hc0, hx⟩
        · rw [if_neg h3] at h
          rcases List.mem_cons.1 h with hx | hx
          · exact ⟨c, List.mem_cons_self _ _, hx⟩
          · obtain ⟨c0, hc0, hx⟩ := ih hx
            exact ⟨c0, List.mem_cons_of_mem _ hc0, hx⟩

/-- C6 (confirmed): the timestamp-revision pipeline never lets a record
survive whose timestamp lies more than one hour (the grace period) after
`now` or before the one-year horizon. -/
theorem readHistory_timestamp_bounds (r : HistoryTs.Reader) (now oneYearAgo : Int)
    (cmds : List HistoryTs.Command) (c : HistoryTs.Command)
    (hc : c ∈ HistoryTs.ReadHistory r now oneYearAgo cmds) :
    c.Timestamp ≤ now + 3600 ∧ oneYearAgo ≤ c.Timestamp := by
  simp only [HistoryTs.ReadHistory, HistoryTs.sortByTsDesc] at hc
  rw [(List.perm_insertionSort _ _).mem_iff] at hc
  obtain ⟨c0, hc0, hx⟩ := mem_dedupListTs hc
  rw [(List.perm_insertionSort _ _).mem_iff] at hc0
  simp only [HistoryTs.filterProblematicCommands, List.mem_filter] at hc0
  obtain ⟨-, hok⟩ := hc0
  simp only [HistoryTs.isProblematicCommand, Bool.not_eq_true', Bool.or_eq_false_iff,
    decide_eq_false_iff_not, not_lt] at hok
  subst hx
  exact hok.1.1.1.1.1

/-- Witness for C6 at a concrete run. -/
theorem readHistory_timestamp_bounds_witness :
    ((⟨"ls".toList, 5, [], 1, 0, false⟩ : HistoryTs.Command) ∈
        HistoryTs.ReadHistory ⟨[]⟩ 0 (-100) [⟨"ls".toList, 5, [], 0, 0, false⟩]) ∧
      ((⟨"ls".toList, 5, [], 1, 0, false⟩ : HistoryTs.Command).Timestamp ≤ 0 + 3600 ∧
        (-100 : Int) ≤ (⟨"ls".toList, 5, [], 1, 0, false⟩ : HistoryTs.Command).Timestamp) :=
  ⟨by decide,
    readHistory_timestamp_bounds ⟨[]⟩ 0 (-100) [⟨"ls".toList, 5, [], 0, 0, false⟩]
      ⟨"ls".toList, 5, [], 1, 0, false⟩ (by decide)⟩

/-- C7 counterexample: the Extended-dialect line `:garbage` (marker, no
separator) is *recovered* as the command `garbage`; a Command is produced,
contradicting Scenario D of the specification. -/
theorem parseZshLine_garbage_recovered :
    HistoryPos.parseZshLine ":garbage".toList 0
        = { Text := "garbage".toList, Position := 0 } ∧
      "garbage".toList ≠ ([] : Str) := by
  decide

/-- C7 (amended): for any Extended-dialect line carrying the marker but no
separator character, the text after the marker is recovered as a literal
command exactly when it is nonempty after trimming and contains no further
colon characters; otherwise the line produces no Command (empty text). -/
theorem parseZshLine_no_separator_recovery (line : Str) (n : Int)
    (h1 : (trimSpace line).take 1 = [':'])
    (h2 : ';' ∉ trimSpace line) :
    (HistoryPos.parseZshLine line n).Text =
        (if trimSpace ((trimSpace line).drop 1) ≠ [] ∧
            ¬ (trimSpace ((trimSpace line).drop 1)).contains ':'
          then trimSpace ((trimSpace line).drop 1) else []) ∧
      (HistoryPos.parseZshLine line n).Position = n := by
  simp only [HistoryPos.parseZshLine]
  rw [if_neg (fun hn => hn h1)]
  have hpost : (trimSpace line).dropWhile (fun c => c ≠ ';') = [] := by
    rw [List.dropWhile_eq_nil_iff]
    intro x hx
    simp only [decide_eq_true_eq]
    exact fun he => h2 (he ▸ hx)
  rw [hpost, if_pos (Or.inl rfl)]
  by_cases hlen : 1 < (trimSpace line).length
  · rw [if_pos hlen]
    refine ⟨?_, ?_⟩
    · by_cases hcmd : trimSpace ((trimSpace line).drop 1) ≠ [] ∧
          ¬ (trimSpace ((trimSpace line).drop 1)).contains ':' = true
      · rw [if_pos hcmd, if_pos hcmd]
      · rw [if_neg hcmd, if_neg hcmd]
    · split <;> rfl
  · rw [if_neg hlen]
    have hline : trimSpace line = [':'] := by
      rcases he : trimSpace line with _ | ⟨c, rest⟩
      · rw [he] at h1
        exact absurd h1 (by decide)
      · rw [he] at h1 hlen
        have h1c : c :: ([] : Str) = [':'] := h1
        injection h1c with hc hrest0
        subst hc
        have hrest : rest = [] := by
          simp only [List.length_cons, not_lt] at hlen
          exact List.eq_nil_of_length_eq_zero (by omega)
        rw [hrest]
    have hnil : trimSpace ((trimSpace line).drop 1) = [] := by
      rw [hline]
      rfl
    refine ⟨?_, rfl⟩
    rw [if_neg (fun hand => hand.1 hnil)]

/-- Witness for C7's amended theorem on the line `:ls`. -/
theorem parseZshLine_no_separator_recovery_witness :
    ((trimSpace ":ls".toList).take 1 = [':']) ∧ (';' ∉ trimSpace ":ls".toList) ∧
      ((HistoryPos.parseZshLine ":ls".toList 3).Text =
          (if trimSpace ((trimSpace ":ls".toList).drop 1) ≠ [] ∧
              ¬ (trimSpace ((trimSpace ":ls".toList).drop 1)).contains ':'
            then trimSpace ((trimSpace ":ls".toList).drop 1) else []) ∧
        (HistoryPos.parseZshLine ":ls".toList 3).Position = 3) :=
  ⟨by decide, by decide,
    parseZshLine_no_separator_recovery ":ls".toList 3 (by decide) (by decide)⟩

/-- Compiling a pattern list whose first failure is `bad` stops there:
the accumulated result is the compiled prefix and the error names `bad`. -/
theorem compileLoop_append (compile : HistoryPos.CompileFun) (pre : List Str)
    (bad : Str) (post : List Str)
    (hpre : ∀ p ∈ pre, (compile p).isSome) (hbad : compile bad = none) :
    ∀ acc : List (Str → Bool),
      HistoryPos.compileLoop compile (pre ++ bad :: post) acc
        = (acc ++ pre.filterMap compile, some bad) := by
  induction pre with
  | nil =>
    intro acc
    simp [HistoryPos.compileLoop, hbad]
  | cons p pre ih =>
    intro acc
    have hp : (compile p).isSome := hpre p (List.mem_cons_self _ _)
    obtain ⟨g, hg⟩ := Option.isSome_iff_exists.1 hp
    simp only [List.cons_append, HistoryPos.compileLoop, hg, List.append_eq]
    rw [ih (fun q hq => hpre q (List.mem_cons_of_mem _ hq)) (acc ++ [g])]
    simp [List.filterMap_cons, hg]

/-- C8 counterexample: with the malformed pattern first and a valid pattern
after it, `SetExcludePatterns` reports the error but leaves the valid
pattern uncompiled and unapplied, so a later-listed valid pattern is not
"still compiled and applied". -/
theorem setExcludePatterns_valid_suffix_dropped :
    let compile : HistoryPos.CompileFun :=
      fun s => if s = "(".toList then none else some (fun t => containsSub t s)
    let out := HistoryPos.SetExcludePatterns compile ⟨[]⟩ ["(".toList, "b".toList]
    out.2 = some "(".toList ∧ out.1.excludePatterns.length = 0 ∧
      HistoryPos.shouldExclude out.1 "b".toList = false := by
  exact ⟨rfl, rfl, rfl⟩

/-- C8 (amended): when the pattern list contains a malformed pattern, the
first such pattern is reported to the caller as the error; the valid
patterns *preceding* it are compiled and remain applied, while patterns
after it are not compiled.  (Already-read history data lives in the storage
layer and is untouched; see C9 for the state equality.) -/
theorem setExcludePatterns_stops_at_first_error (compile : HistoryPos.CompileFun)
    (r : HistoryPos.Reader) (pre : List Str) (bad : Str) (post : List Str)
    (hpre : ∀ p ∈ pre, (compile p).isSome) (hbad : compile bad = none) :
    (HistoryPos.SetExcludePatterns compile r (pre ++ bad :: post)).2 = some bad ∧
      (HistoryPos.SetExcludePatterns compile r (pre ++ bad :: post)).1.excludePatterns
        = pre.filterMap compile := by
  simp only [HistoryPos.SetExcludePatterns]
  rw [compileLoop_append compile pre bad post hpre hbad []]
  exact ⟨rfl, by simp⟩

/-- Witness for C8's amended theorem. -/
theorem setExcludePatterns_stops_at_first_error_witness :
    let compile : HistoryPos.CompileFun :=
      fun s => if s = "(".toList then none else some (fun t => containsSub t s)
    (∀ p ∈ ["pw".toList], (compile p).isSome) ∧ compile "(".toList = none ∧
      ((HistoryPos.SetExcludePatterns compile ⟨[]⟩
            ("pw".toList :: "(".toList :: ["b".toList])).2 = some "(".toList ∧
        (HistoryPos.SetExcludePatterns compile ⟨[]⟩
            ("pw".toList :: "(".toList :: ["b".toList])).1.excludePatterns
          = ["pw".toList].filterMap compile) := by
  intro compile
  refine ⟨by decide, rfl, ?_⟩
  exact setExcludePatterns_stops_at_first_error compile ⟨[]⟩ ["pw".toList]
    "(".toList ["b".toList] (by decide) rfl

/-- C9 (confirmed): when the first invalid pattern sits at index `i` (here:
after the prefix `pre` of valid patterns), `SetExcludePatterns` returns an
error, the active exclusion set is exactly the compiled prefix, patterns
after the failure are never consulted (the result is independent of them),
and subsequent `ReadHistory` calls run with that partial set — nothing is
rolled back. -/
theorem setExcludePatterns_partial_state (compile : HistoryPos.CompileFun)
    (r : HistoryPos.Reader) (pre : List Str) (bad : Str) (post : List Str)
    (hpre : ∀ p ∈ pre, (compile p).isSome) (hbad : compile bad = none) :
    ((HistoryPos.SetExcludePatterns compile r (pre ++ bad :: post)).2).isSome = true ∧
      (HistoryPos.SetExcludePatterns compile r (pre ++ bad :: post)).1.excludePatterns
        = pre.filterMap compile ∧
      (∀ post' : List Str,
        HistoryPos.SetExcludePatterns compile r (pre ++ bad :: post')
          = HistoryPos.SetExcludePatterns compile r (pre ++ bad :: post)) ∧
      (∀ cmds : List HistoryPos.Command,
        HistoryPos.ReadHistory
            (HistoryPos.SetExcludePatterns compile r (pre ++ bad :: post)).1 cmds
          = HistoryPos.ReadHistory ⟨pre.filterMap compile⟩ cmds) := by
  have hmain : ∀ post' : List Str,
      HistoryPos.SetExcludePatterns compile r (pre ++ bad :: post')
        = (⟨pre.filterMap compile⟩, some bad) := by
    intro post'
    simp only [HistoryPos.SetExcludePatterns]
    rw [compileLoop_append compile pre bad post' hpre hbad []]
    rfl
  refine ⟨?_, ?_, ?_, ?_⟩
  · rw [hmain post]
    rfl
  · rw [hmain post]
  · intro post'
    rw [hmain post', hmain post]
  · intro cmds
    rw [hmain post]

/-- Witness for C9 at a concrete compile function and pattern list. -/
theorem setExcludePatterns_partial_state_witness :
    let compile : HistoryPos.CompileFun :=
      fun s => if s = ")".toList then none else some (fun t => containsSub t s)
    (∀ p ∈ ["tok".toList], (compile p).isSome) ∧ compile ")".toList = none ∧
      (((HistoryPos.SetExcludePatterns compile ⟨[]⟩
            ("tok".toList :: ")".toList :: ["z".toList])).2).isSome = true ∧
        (HistoryPos.SetExcludePatterns compile ⟨[]⟩
            ("tok".toList :: ")".toList :: ["z".toList])).1.excludePatterns
          = ["tok".toList].filterMap compile ∧
        (∀ post' : List Str,
          HistoryPos.SetExcludePatterns compile ⟨[]⟩ ("tok".toList :: ")".toList :: post')
            = HistoryPos.SetExcludePatterns compile ⟨[]⟩
                ("tok".toList :: ")".toList :: ["z".toList])) ∧
        (∀ cmds : List HistoryPos.Command,
          HistoryPos.ReadHistory
              (HistoryPos.SetExcludePatterns compile ⟨[]⟩
                ("tok".toList :: ")".toList :: ["z".toList])).1 cmds
            = HistoryPos.ReadHistory ⟨["tok".toList].filterMap compile⟩ cmds)) := by
  intro compile
  refine ⟨by decide, rfl, ?_⟩
  exact setExcludePatterns_partial_state compile ⟨[]⟩ ["tok".toList]
    ")".toList ["z".toList] (by decide) rfl

/-- Updating a value in the modelled command map does not change its key set. -/
theorem updateMap_keys (m : List (Str × HistoryPos.Command)) (k : Str)
    (v : HistoryPos.Command) :
    (HistoryPos.updateMap m k v).map Prod.fst = m.map Prod.fst := by
  unfold HistoryPos.updateMap
  rw [List.map_map]
  have hfun : (Prod.fst ∘ fun p : Str × HistoryPos.Command =>
      if p.1 = k then (p.1, v) else p) = Prod.fst := by
    funext p
    by_cases h : p.1 = k
    · simp [h]
    · simp [h]
  rw [hfun]

/-- Lookup misses exactly the keys outside the map's key set. -/
theorem lookupMap_eq_none_iff (m : List (Str × HistoryPos.Command)) (k : Str) :
    HistoryPos.lookupMap m k = none ↔ k ∉ m.map Prod.fst := by
  unfold HistoryPos.lookupMap
  rw [Option.map_eq_none', List.find?_eq_none]
  simp only [decide_eq_true_eq, List.mem_map]
  constructor
  · rintro h ⟨p, hp, rfl⟩
    exact h p hp rfl
  · rintro h p hp hk
    exact h ⟨p, hp, hk⟩

/-- The `result` component of the dedup loop is computed by `dedupList`,
seeded with the key set of the starting map: the in-map count increments
and field refreshes never touch `result`. -/
theorem dedupRun_result (r : HistoryPos.Reader) :
    ∀ (l : List HistoryPos.Command) (st : HistoryPos.DedupState),
      (l.foldl (HistoryPos.dedupStep r) st).result
        = st.result ++ HistoryPos.dedupList r (st.commandMap.map Prod.fst) l := by
  intro l
  induction l with
  | nil => intro st; simp [HistoryPos.dedupList]
  | cons c rest ih =>
    intro st
    rw [List.foldl_cons]
    by_cases h1 : HistoryPos.shouldExclude r c.Text = true
    · have hstep : HistoryPos.dedupStep r st c = st := by
        simp [HistoryPos.dedupStep, h1]
      rw [hstep, ih st]
      simp only [HistoryPos.dedupList, if_pos h1]
    · by_cases h2 : GoStr.trimSpace c.Text = []
      · have hstep : HistoryPos.dedupStep r st c = st := by
          simp [HistoryPos.dedupStep, h1, h2]
        rw [hstep, ih st]
        simp only [HistoryPos.dedupList]
        rw [if_neg h1, if_pos h2]
      · rcases hlk : HistoryPos.lookupMap st.commandMap (GoStr.trimSpace c.Text)
            with _ | existing
        · have hnotin : GoStr.trimSpace c.Text ∉ st.commandMap.map Prod.fst :=
            (lookupMap_eq_none_iff _ _).1 hlk
          have hstep : HistoryPos.dedupStep r st c =
              ⟨(GoStr.trimSpace c.Text,
                  { c with Text := GoStr.trimSpace c.Text, Count := 1 }) :: st.commandMap,
                st.result ++ [{ c with Text := GoStr.trimSpace c.Text, Count := 1 }]⟩ := by
            simp [HistoryPos.dedupStep, h1, h2, hlk]
          rw [hstep, ih]
          simp only [HistoryPos.dedupList]
          rw [if_neg h1, if_neg h2, if_neg hnotin]
          simp
        · have hin : GoStr.trimSpace c.Text ∈ st.commandMap.map Prod.fst := by
            by_contra hni
            rw [← lookupMap_eq_none_iff] at hni
            rw [hni] at hlk
            cases hlk
          have hstep : (HistoryPos.dedupStep r st c).result = st.result ∧
              (HistoryPos.dedupStep r st c).commandMap.map Prod.fst
                = st.commandMap.map Prod.fst := by
            constructor <;> simp [HistoryPos.dedupStep, h1, h2, hlk, updateMap_keys]
          calc (rest.foldl (HistoryPos.dedupStep r) (HistoryPos.dedupStep r st c)).result
              = (HistoryPos.dedupStep r st c).result ++
                  HistoryPos.dedupList r
                    ((HistoryPos.dedupStep r st c).commandMap.map Prod.fst) rest := ih _
            _ = st.result ++ HistoryPos.dedupList r (st.commandMap.map Prod.fst) rest := by
                rw [hstep.1, hstep.2]
            _ = st.result ++
                  HistoryPos.dedupList r (st.commandMap.map Prod.fst) (c :: rest) := by
                simp only [HistoryPos.dedupList]
                rw [if_neg h1, if_neg h2, if_pos hin]

/-- Membership in the dedup output over a position-sorted input whose
surviving same-text records are determined by their position: the output
records are exactly the trimmed count-1 copies of the maximal-position
surviving occurrence of each text not already seen. -/
theorem mem_dedupList_sorted (r : HistoryPos.Reader) :
    ∀ l : List HistoryPos.Command, List.Sorted HistoryPos.posGe l →
      (∀ c ∈ l, ∀ c' ∈ l, GoStr.trimSpace c.Text = GoStr.trimSpace c'.Text →
        c.Position = c'.Position → c = c') →
      ∀ (seen : List GoStr.Str) (x : HistoryPos.Command),
        (x ∈ HistoryPos.dedupList r seen l ↔
          ∃ c ∈ l, HistoryPos.keep r c ∧ GoStr.trimSpace c.Text ∉ seen ∧
            x = HistoryPos.cleanOf c ∧
            ∀ c' ∈ l, HistoryPos.keep r c' →
              GoStr.trimSpace c'.Text = GoStr.trimSpace c.Text →
              c'.Position ≤ c.Position) := by
  intro l
  induction l with
  | nil =>
    intro _ _ seen x
    simp [HistoryPos.dedupList]
  | cons c0 rest ih =>
    intro hsort huniq seen x
    rw [List.sorted_cons] at hsort
    obtain ⟨hhead, htail⟩ := hsort
    have huniqt : ∀ c ∈ rest, ∀ c' ∈ rest,
        GoStr.trimSpace c.Text = GoStr.trimSpace c'.Text →
        c.Position = c'.Position → c = c' :=
      fun c hc c' hc' => huniq c (List.mem_cons_of_mem _ hc) c' (List.mem_cons_of_mem _ hc')
    have IH := ih htail huniqt
    by_cases h1 : HistoryPos.shouldExclude r c0.Text = true
    · have hnk : ¬ HistoryPos.keep r c0 := fun hk => hk.1 h1
      have hout : HistoryPos.dedupList r seen (c0 :: rest)
          = HistoryPos.dedupList r seen rest := by
        simp only [HistoryPos.dedupList]
        rw [if_pos h1]
      rw [hout, IH seen x]
      constructor
      · rintro ⟨c, hc, hk, hns, hx, hmax⟩
        refine ⟨c, List.mem_cons_of_mem _ hc, hk, hns, hx, ?_⟩
        intro c' hc' hk' ht
        rcases List.mem_cons.1 hc' with rfl | hc'r
        · exact absurd hk' hnk
        · exact hmax c' hc'r hk' ht
      · rintro ⟨c, hc, hk, hns, hx, hmax⟩
        rcases List.mem_cons.1 hc with rfl | hcr
        · exact absurd hk hnk
        · exact ⟨c, hcr, hk, hns, hx,
            fun c' hc' hk' ht => hmax c' (List.mem_cons_of_mem _ hc') hk' ht⟩
    · by_cases h2 : GoStr.trimSpace c0.Text = []
      · have hnk : ¬ HistoryPos.keep r c0 := fun hk => hk.2 h2
        have hout : HistoryPos.dedupList r seen (c0 :: rest)
            = HistoryPos.dedupList r seen rest := by
          simp only [HistoryPos.dedupList]
          rw [if_neg h1, if_pos h2]
        rw [hout, IH seen x]
        constructor
        · rintro ⟨c, hc, hk, hns, hx, hmax⟩
          refine ⟨c, List.mem_cons_of_mem _ hc, hk, hns, hx, ?_⟩
          intro c' hc' hk' ht
          rcases List.mem_cons.1 hc' with rfl | hc'r
          · exact absurd hk' hnk
          · exact hmax c' hc'r hk' ht
        · rintro ⟨c, hc, hk, hns, hx, hmax⟩
          rcases List.mem_cons.1 hc with rfl | hcr
          · exact absurd hk hnk
          · exact ⟨c, hcr, hk, hns, hx,
              fun c' hc' hk' ht => hmax c' (List.mem_cons_of_mem _ hc') hk' ht⟩
      · have hk0 : HistoryPos.keep r c0 := ⟨h1, h2⟩
        by_cases h3 : GoStr.trimSpace c0.Text ∈ seen
        · have hout : HistoryPos.dedupList r seen (c0 :: rest)
              = HistoryPos.dedupList r seen rest := by
            simp only [HistoryPos.dedupList]
            rw [if_neg h1, if_neg h2, if_pos h3]
          rw [hout, IH seen x]
          constructor
          · rintro ⟨c, hc, hk, hns, hx, hmax⟩
            refine ⟨c, List.mem_cons_of_mem _ hc, hk, hns, hx, ?_⟩
            intro c' hc' hk' ht
            rcases List.mem_cons.1 hc' with rfl | hc'r
            · exact absurd (ht ▸ h3) hns
            · exact hmax c' hc'r hk' ht
          · rintro ⟨c, hc, hk, hns, hx, hmax⟩
            rcases List.mem_cons.1 hc with rfl | hcr
            · exact absurd h3 hns
            · exact ⟨c, hcr, hk, hns, hx,
                fun c' hc' hk' ht => hmax c' (List.mem_cons_of_mem _ hc') hk' ht⟩
        · have hout : HistoryPos.dedupList r seen (c0 :: rest)
              = HistoryPos.cleanOf c0
                  :: HistoryPos.dedupList r (GoStr.trimSpace c0.Text :: seen) rest := by
            simp only [HistoryPos.dedupList]
            rw [if_neg h1, if_neg h2, if_neg h3]
            rfl
          rw [hout]
          constructor
          · intro hx
            rcases List.mem_cons.1 hx with rfl | hxr
            · refine ⟨c0, List.mem_cons_self _ _, hk0, h3, rfl, ?_⟩
              intro c' hc' hk' ht
              rcases List.mem_cons.1 hc' with rfl | hc'r
              · exact le_refl _
              · exact hhead c' hc'r
            · rw [IH (GoStr.trimSpace c0.Text :: seen) x] at hxr
              obtain ⟨c, hc, hk, hns, hxx, hmax⟩ := hxr
              have hne : GoStr.trimSpace c.Text ≠ GoStr.trimSpace c0.Text :=
                fun he => hns (List.mem_cons.2 (Or.inl he))
              refine ⟨c, List.mem_cons_of_mem _ hc, hk,
                fun hsn => hns (List.mem_cons_of_mem _ hsn), hxx, ?_⟩
              intro c' hc' hk' ht
              rcases List.mem_cons.1 hc' with rfl | hc'r
              · exact absurd ht.symm hne
              · exact hmax c' hc'r hk' ht
          · rintro ⟨c, hc, hk, hns, hxx, hmax⟩
            by_cases hteq : GoStr.trimSpace c.Text = GoStr.trimSpace c0.Text
            · have hceq : c = c0 := by
                rcases List.mem_cons.1 hc with rfl | hcr
                · rfl
                · have hle1 : c0.Position ≤ c.Position :=
                    hmax c0 (List.mem_cons_self _ _) hk0 hteq.symm
                  have hle2 : c.Position ≤ c0.Position := hhead c hcr
                  exact huniq c hc c0 (List.mem_cons_self _ _) hteq
                    (le_antisymm hle2 hle1)
              exact List.mem_cons.2 (Or.inl (by rw [hxx, hceq]))
            · have hcr : c ∈ rest := by
                rcases List.mem_cons.1 hc with rfl | h
                · exact absurd rfl hteq
                · exact h
              refine List.mem_cons.2 (Or.inr ?_)
              rw [IH (GoStr.trimSpace c0.Text :: seen) x]
              refine ⟨c, hcr, hk, ?_, hxx, ?_⟩
              · intro hmem
                rcases List.mem_cons.1 hmem with he | hsn
                · exact hteq he
                · exact hns hsn
              · intro c' hc' hk' ht
                exact hmax c' (List.mem_cons_of_mem _ hc') hk' ht

/-- The dedup output has pairwise-distinct texts, none of them already seen. -/
theorem dedupList_texts_nodup (r : HistoryPos.Reader) :
    ∀ (l : List HistoryPos.Command) (seen : List GoStr.Str),
      ((HistoryPos.dedupList r seen l).map (fun x => x.Text)).Nodup ∧
        ∀ x ∈ HistoryPos.dedupList r seen l, x.Text ∉ seen := by
  intro l
  induction l with
  | nil =>
    intro seen
    simp [HistoryPos.dedupList]
  | cons c0 rest ih =>
    intro seen
    by_cases h1 : HistoryPos.shouldExclude r c0.Text = true
    · have hout : HistoryPos.dedupList r seen (c0 :: rest)
          = HistoryPos.dedupList r seen rest := by
        simp only [HistoryPos.dedupList]
        rw [if_pos h1]
      rw [hout]
      exact ih seen
    · by_cases h2 : GoStr.trimSpace c0.Text = []
      · have hout : HistoryPos.dedupList r seen (c0 :: rest)
            = HistoryPos.dedupList r seen rest := by
          simp only [HistoryPos.dedupList]
          rw [if_neg h1, if_pos h2]
        rw [hout]
        exact ih seen
      · by_cases h3 : GoStr.trimSpace c0.Text ∈ seen
        · have hout : HistoryPos.dedupList r seen (c0 :: rest)
              = HistoryPos.dedupList r seen rest := by
            simp only [HistoryPos.dedupList]
            rw [if_neg h1, if_neg h2, if_pos h3]
          rw [hout]
          exact ih seen
        · have hout : HistoryPos.dedupList r seen (c0 :: rest)
              = HistoryPos.cleanOf c0
                  :: HistoryPos.dedupList r (GoStr.trimSpace c0.Text :: seen) rest := by
            simp only [HistoryPos.dedupList]
            rw [if_neg h1, if_neg h2, if_neg h3]
            rfl
          rw [hout]
          obtain ⟨hnd, hnotin⟩ := ih (GoStr.trimSpace c0.Text :: seen)
          constructor
          · rw [List.map_cons, List.nodup_cons]
            refine ⟨?_, hnd⟩
            intro hmem
            obtain ⟨y, hy, hyt⟩ := List.mem_map.1 hmem
            have := hnotin y hy
            rw [hyt] at this
            exact this (List.mem_cons_self _ _)
          · intro y hy
            rcases List.mem_cons.1 hy with rfl | hyr
            · exact h3
            · exact fun hsn => hnotin y hyr (List.mem_cons_of_mem _ hsn)

/-- C2 counterexample: two raw candidates with the same text and the same
ordering key but different exit codes.  Swapping them changes which record
survives aggregation, so the final Command set differs in its exit-code
fields: aggregation is not permutation-invariant. -/
theorem aggregation_not_permutation_invariant :
    List.Perm
        [(⟨"ls".toList, 5, [], 0, 0, true⟩ : HistoryPos.Command),
          ⟨"ls".toList, 5, [], 0, 1, true⟩]
        [⟨"ls".toList, 5, [], 0, 1, true⟩, ⟨"ls".toList, 5, [], 0, 0, true⟩] ∧
      (HistoryPos.ReadHistory ⟨[]⟩
          [⟨"ls".toList, 5, [], 0, 0, true⟩, ⟨"ls".toList, 5, [], 0, 1, true⟩]).map
            (fun c => c.ExitCode) = [0] ∧
      (HistoryPos.ReadHistory ⟨[]⟩
          [⟨"ls".toList, 5, [], 0, 1, true⟩, ⟨"ls".toList, 5, [], 0, 0, true⟩]).map
            (fun c => c.ExitCode) = [1] := by
  decide

/-- C2 (amended): aggregation is permutation-invariant up to output order
whenever no two distinct raw candidates share both their trimmed text and
their ordering key (the situation the counterexample exploits): permuting
the raw input permutes the final Command list, so the final Command set —
texts, counts, representative ordering keys and exit-code fields — is
unchanged. -/
theorem aggregation_permutation_invariant_of_unique_keys (r : HistoryPos.Reader)
    (l l' : List HistoryPos.Command) (hperm : List.Perm l l')
    (huniq : ∀ c ∈ l, ∀ c' ∈ l, GoStr.trimSpace c.Text = GoStr.trimSpace c'.Text →
      c.Position = c'.Position → c = c') :
    List.Perm (HistoryPos.ReadHistory r l) (HistoryPos.ReadHistory r l') := by
  have hL1 : ∀ m : List HistoryPos.Command,
      HistoryPos.ReadHistory r m
        = HistoryPos.sortByPosDesc (HistoryPos.dedupList r []
            (HistoryPos.sortByPosDesc (HistoryPos.filterProblematicCommands m))) := by
    intro m
    simp only [HistoryPos.ReadHistory, HistoryPos.dedupRun]
    rw [dedupRun_result]
    simp
  have hs1p : List.Perm (HistoryPos.sortByPosDesc (HistoryPos.filterProblematicCommands l))
      (HistoryPos.filterProblematicCommands l) := List.perm_insertionSort _ _
  have hs2p : List.Perm (HistoryPos.sortByPosDesc (HistoryPos.filterProblematicCommands l'))
      (HistoryPos.filterProblematicCommands l') := List.perm_insertionSort _ _
  have hfp : List.Perm (HistoryPos.filterProblematicCommands l)
      (HistoryPos.filterProblematicCommands l') := hperm.filter _
  have hss : List.Perm (HistoryPos.sortByPosDesc (HistoryPos.filterProblematicCommands l))
      (HistoryPos.sortByPosDesc (HistoryPos.filterProblematicCommands l')) :=
    (hs1p.trans hfp).trans hs2p.symm
  have hsorted1 : List.Sorted HistoryPos.posGe
      (HistoryPos.sortByPosDesc (HistoryPos.filterProblematicCommands l)) :=
    List.sorted_insertionSort _ _
  have hsorted2 : List.Sorted HistoryPos.posGe
      (HistoryPos.sortByPosDesc (HistoryPos.filterProblematicCommands l')) :=
    List.sorted_insertionSort _ _
  have hsub1 : ∀ x ∈ HistoryPos.sortByPosDesc (HistoryPos.filterProblematicCommands l),
      x ∈ l := by
    intro x hx
    exact (List.mem_filter.1 (hs1p.mem_iff.1 hx)).1
  have hsub2 : ∀ x ∈ HistoryPos.sortByPosDesc (HistoryPos.filterProblematicCommands l'),
      x ∈ l := by
    intro x hx
    exact hperm.mem_iff.2 ((List.mem_filter.1 (hs2p.mem_iff.1 hx)).1)
  have hu1 : ∀ c ∈ HistoryPos.sortByPosDesc (HistoryPos.filterProblematicCommands l),
      ∀ c' ∈ HistoryPos.sortByPosDesc (HistoryPos.filterProblematicCommands l),
      GoStr.trimSpace c.Text = GoStr.trimSpace c'.Text →
      c.Position = c'.Position → c = c' :=
    fun c hc c' hc' => huniq c (hsub1 c hc) c' (hsub1 c' hc')
  have hu2 : ∀ c ∈ HistoryPos.sortByPosDesc (HistoryPos.filterProblematicCommands l'),
      ∀ c' ∈ HistoryPos.sortByPosDesc (HistoryPos.filterProblematicCommands l'),
      GoStr.trimSpace c.Text = GoStr.trimSpace c'.Text →
      c.Position = c'.Position → c = c' :=
    fun c hc c' hc' => huniq c (hsub2 c hc) c' (hsub2 c' hc')
  have hmemiff : ∀ x,
      x ∈ HistoryPos.dedupList r []
          (HistoryPos.sortByPosDesc (HistoryPos.filterProblematicCommands l)) ↔
      x ∈ HistoryPos.dedupList r []
          (HistoryPos.sortByPosDesc (HistoryPos.filterProblematicCommands l')) := by
    intro x
    rw [mem_dedupList_sorted r _ hsorted1 hu1 [] x,
      mem_dedupList_sorted r _ hsorted2 hu2 [] x]
    constructor
    · rintro ⟨c, hc, hk, hns, hx, hmax⟩
      exact ⟨c, hss.mem_iff.1 hc, hk, hns, hx,
        fun c' hc' => hmax c' (hss.mem_iff.2 hc')⟩
    · rintro ⟨c, hc, hk, hns, hx, hmax⟩
      exact ⟨c, hss.mem_iff.2 hc, hk, hns, hx,
        fun c' hc' => hmax c' (hss.mem_iff.1 hc')⟩
  have hnd1 : (HistoryPos.dedupList r []
      (HistoryPos.sortByPosDesc (HistoryPos.filterProblematicCommands l))).Nodup :=
    List.Nodup.of_map _ (dedupList_texts_nodup r _ []).1
  have hnd2 : (HistoryPos.dedupList r []
      (HistoryPos.sortByPosDesc (HistoryPos.filterProblematicCommands l'))).Nodup :=
    List.Nodup.of_map _ (dedupList_texts_nodup r _ []).1
  have hdperm := (List.perm_ext_iff_of_nodup hnd1 hnd2).2 hmemiff
  rw [hL1 l, hL1 l']
  exact ((List.perm_insertionSort _ _).trans hdperm).trans
    (List.perm_insertionSort _ _).symm

/-- Witness for C2's amended theorem on two distinct-key candidates. -/
theorem aggregation_permutation_invariant_witness :
    List.Perm
        [(⟨"ls".toList, 0, [], 0, 0, false⟩ : HistoryPos.Command),
          ⟨"cd x".toList, 1, [], 0, 0, false⟩]
        [⟨"cd x".toList, 1, [], 0, 0, false⟩, ⟨"ls".toList, 0, [], 0, 0, false⟩] ∧
      (∀ c ∈ [(⟨"ls".toList, 0, [], 0, 0, false⟩ : HistoryPos.Command),
            ⟨"cd x".toList, 1, [], 0, 0, false⟩],
        ∀ c' ∈ [(⟨"ls".toList, 0, [], 0, 0, false⟩ : HistoryPos.Command),
            ⟨"cd x".toList, 1, [], 0, 0, false⟩],
          GoStr.trimSpace c.Text = GoStr.trimSpace c'.Text →
          c.Position = c'.Position → c = c') ∧
      List.Perm
        (HistoryPos.ReadHistory ⟨[]⟩
          [⟨"ls".toList, 0, [], 0, 0, false⟩, ⟨"cd x".toList, 1, [], 0, 0, false⟩])
        (HistoryPos.ReadHistory ⟨[]⟩
          [⟨"cd x".toList, 1, [], 0, 0, false⟩, ⟨"ls".toList, 0, [], 0, 0, false⟩]) :=
  ⟨by decide, by decide,
    aggregation_permutation_invariant_of_unique_keys ⟨[]⟩
      [⟨"ls".toList, 0, [], 0, 0, false⟩, ⟨"cd x".toList, 1, [], 0, 0, false⟩]
      [⟨"cd x".toList, 1, [], 0, 0, false⟩, ⟨"ls".toList, 0, [], 0, 0, false⟩]
      (by decide) (by decide)⟩

/-- C1 (code bug): on two surviving occurrences of `ls`, the returned list
holds a single record whose `Count` is still 1 — the dedup loop increments
the count only through the map pointer (`existing.Count++`) while `result`
keeps the value copy appended at first sight — although the in-map record
for `ls` has reached the intended count 2.  The spec's `count = number of
merged occurrences` invariant is intended (comment: "Increment count and
keep highest position") but the returned slice never sees it. -/
theorem readHistory_count_stays_one :
    HistoryPos.ReadHistory ⟨[]⟩
        [⟨"ls".toList, 0, [], 0, 0, false⟩, ⟨"ls".toList, 1, [], 0, 0, false⟩]
      = [⟨"ls".toList, 1, [], 1, 0, false⟩] ∧
    HistoryPos.lookupMap
        (HistoryPos.dedupRun ⟨[]⟩
          (HistoryPos.sortByPosDesc
            (HistoryPos.filterProblematicCommands
              [⟨"ls".toList, 0, [], 0, 0, false⟩,
                ⟨"ls".toList, 1, [], 0, 0, false⟩]))).commandMap
        "ls".toList
      = some ⟨"ls".toList, 1, [], 2, 0, false⟩ := by
  decide
